import Mathlib

/-!
# Verification of `access-log-to-prometheus-metrics`

A shallow embedding of the program's core (format compiler, line parser,
pipeline builder, line processor, tail engine) from the Rust sources
`src/log_parser.rs`, `src/collector.rs`, `src/processor.rs`, together with
theorems settling the specification's claims.

Modelling conventions:
* Rust `&str`/`String` text is modelled as `List Char` (the code walks
  `CharIndices` iterators; a cursor position into a string corresponds to the
  remaining suffix as a list of characters, and a slice `log[start..i]` to the
  list of characters consumed between the two cursor states).
* Machine integers are `Nat` with explicit range checks where the code's
  `parse::<u16>` / `parse::<u64>` can overflow.
* `f32` values are not representable exactly; a successfully parsed duration is
  abstracted to its source text, with validity following `f32::from_str`'s
  grammar.  No claim depends on the numeric value of a duration.
* Fallible code returns `Except`; Rust panics that abort the process are
  modelled by dedicated error constructors whose names start with `panic`.
-/

set_option maxRecDepth 10000

/-- `enum LogField` of `log_parser.rs`: the recognized field names plus
`Other(String)` for any other identifier. -/
inductive LogField where
  | remoteAddr | remoteUser | timeLocal | request | status
  | bodyBytesSent | httpReferer | httpUserAgent
  | other (name : String)
  deriving DecidableEq, Repr

/-- The single error type of the program (`ParseError(String)` in
`log_parser.rs` and `processor.rs` holds a message string; each constructor
below corresponds to one distinct message produced by the code, carrying the
data the code formats into it where it is needed by a theorem). -/
inductive PError where
  /-- "Empty string" (format compiler, all-whitespace input) -/
  | emptyString : PError
  /-- "Missing '" (format compiler) -/
  | missingQuote : PError
  /-- "Missing final '" (format compiler) -/
  | missingFinalQuote : PError
  /-- "Unexpected characters at the end" (format compiler) -/
  | unexpectedEnd : PError
  /-- "Expected identifier" (format compiler, `read_identifier`) -/
  | expectedIdentifier : PError
  /-- "Expected {:?}, found {:?}" (line parser, literal mismatch) -/
  | expectedFound (expected : List Char) : PError
  /-- "Can't parse, no separator between {:?} and {:?}" (line parser, two
  consecutive field tokens) -/
  | noSeparator (f g : LogField) : PError
  /-- "Missing separator {:?}" (line parser, end of line reached while
  scanning for a field's separator character) -/
  | missingSeparator (sep : Char) : PError
  /-- "Invalid status code" (line parser; the code reuses this message for
  both the `Status` and the `BodyBytesSent` numeric conversions) -/
  | invalidStatusCode : PError
  /-- "Invalid duration" (`Extractor::extract`, `Duration`) -/
  | invalidDuration : PError
  /-- "Invalid number of bytes" (`Extractor::extract`, `ResponseBodySize`) -/
  | invalidNumberOfBytes : PError
  /-- models the panic of `s.chars().next().unwrap()` on an empty literal
  token in `LogParserInner::parse` (unreachable for compiled formats) -/
  | panicEmptyLiteral : PError
  /-- models the panic "Extractor with no target label tried to set a label"
  in `Extractor::extract` -/
  | panicNoTargetLabel : PError
  /-- models the panic of the slice write `labels[label_index] = label` when
  `label_index` is out of bounds -/
  | panicIndexOutOfBounds : PError
  deriving DecidableEq, Repr

/-- `enum LogToken` of `log_parser.rs`: a literal run or a field placeholder. -/
inductive LogToken where
  | str (s : List Char)
  | field (f : LogField)
  deriving DecidableEq, Repr

instance {ε α : Type} [DecidableEq ε] [DecidableEq α] : DecidableEq (Except ε α)
  | .error e, .error e' =>
    if h : e = e' then .isTrue (by rw [h]) else .isFalse (by intro hh; cases hh; exact h rfl)
  | .error _, .ok _ => .isFalse (by intro h; cases h)
  | .ok _, .error _ => .isFalse (by intro h; cases h)
  | .ok a, .ok a' =>
    if h : a = a' then .isTrue (by rw [h]) else .isFalse (by intro hh; cases hh; exact h rfl)

/-- `enum LogValue` of `log_parser.rs` (the version under `src/`): parsed field
values; `Status` and `BodyBytesSent` hold machine integers (`u16` / `u64`). -/
inductive LogValue where
  | remoteAddr (v : List Char)
  | remoteUser (v : List Char)
  | timeLocal (v : List Char)
  | request (v : List Char)
  | status (n : Nat)
  | bodyBytesSent (n : Nat)
  | httpReferer (v : List Char)
  | httpUserAgent (v : List Char)
  | other (name : String) (v : List Char)
  deriving DecidableEq, Repr

/-! ## Format compiler (`LogFormatParser`, `log_parser.rs` lines 170-333) -/

/-- `skip_whitespace`: advance the iterator past whitespace characters
(`char::is_whitespace`; ASCII inputs coincide with `Char.isWhitespace`). -/
def skipWhitespace (it : List Char) : List Char :=
  it.dropWhile Char.isWhitespace

/-- Loop body of `maybe_consume`, carrying the entry state `orig` of the
iterator (the Rust code keeps it in `previous` for the restoring swap).
On a character mismatch the iterator is restored to `orig`; when `s` is not
exhausted but the iterator is, the code returns `false` *without* restoring
(the iterator stays exhausted). -/
def maybeConsumeFrom (orig : List Char) : List Char → List Char → Bool × List Char
  | [], it => (true, it)
  | _ :: _, [] => (false, [])
  | e :: s, a :: it => if e = a then maybeConsumeFrom orig s it else (false, orig)

/-- `maybe_consume(s)`: consume the literal `s` if it is a prefix of the
remaining input, returning whether it was consumed and the new iterator. -/
def maybeConsume (s : List Char) (it : List Char) : Bool × List Char :=
  maybeConsumeFrom it s it

/-- The character class of `read_identifier`: lowercase letters, digits,
underscore. -/
def isIdentChar (c : Char) : Bool :=
  ('a' ≤ c && c ≤ 'z') || ('0' ≤ c && c ≤ '9') || c = '_'

/-- The mapping from identifier text to `LogField` performed by the chain of
`if var == "..."` tests in `parse_format`. -/
def fieldOfName (var : List Char) : LogField :=
  let s := String.mk var
  if s = "remote_addr" then .remoteAddr
  else if s = "remote_user" then .remoteUser
  else if s = "time_local" then .timeLocal
  else if s = "request" then .request
  else if s = "status" then .status
  else if s = "body_bytes_sent" then .bodyBytesSent
  else if s = "http_referer" then .httpReferer
  else if s = "http_user_agent" then .httpUserAgent
  else .other s

/-- The literal-character branch of `parse_format`: push `c` onto the last
`Str` token if there is one, otherwise start a new `Str` token. -/
def pushChar (fields : List LogToken) (c : Char) : List LogToken :=
  match fields.getLast? with
  | some (.str s) => fields.dropLast ++ [.str (s ++ [c])]
  | _ => fields ++ [.str [c]]

/-- The single-quote character `'` (the format body's delimiter). -/
def quoteChar : Char := Char.ofNat 39

/-- `parse_format` (lines 227-270) together with `read_identifier`
(lines 312-332), as one structurally recursive loop over the remaining input.
The mode argument is the loop's program counter: `none` is the top of
`parse_format`'s `while` loop; `some acc` is execution inside
`read_identifier`'s scan (entered after consuming a `$`), with `acc` the
identifier characters consumed so far.  When the scan stops at a
non-identifier character (or at end of input) an empty identifier is the error
"Expected identifier"; otherwise the recognized field token is pushed and the
stopping character is dispatched exactly as at the top of the `while` loop. -/
def parseFormatBody : List Char → Option (List Char) → List LogToken →
    Except PError (List LogToken × List Char)
  | [], none, fields => .ok (fields, [])
  | [], some acc, fields =>
    if acc.isEmpty then .error .expectedIdentifier
    else .ok (fields ++ [.field (fieldOfName acc)], [])
  | c :: it, none, fields =>
    if c = quoteChar then .ok (fields, c :: it)
    else if c = '$' then parseFormatBody it (some []) fields
    else parseFormatBody it none (pushChar fields c)
  | c :: it, some acc, fields =>
    if isIdentChar c then parseFormatBody it (some (acc ++ [c])) fields
    else if acc.isEmpty then .error .expectedIdentifier
    else
      let fields' := fields ++ [.field (fieldOfName acc)]
      if c = quoteChar then .ok (fields', c :: it)
      else if c = '$' then parseFormatBody it (some []) fields'
      else parseFormatBody it none (pushChar fields' c)

/-- `LogFormatParser::parse` (lines 185-225): accept either a bare body or the
`log_format [combined] '<body>';` wrapper. -/
def parseFormat (format : List Char) : Except PError (List LogToken) :=
  let it := skipWhitespace format
  if it.isEmpty then .error .emptyString
  else
    match maybeConsume "log_format".toList it with
    | (true, it1) =>
      let it2 := skipWhitespace it1
      let it3 :=
        match maybeConsume "combined".toList it2 with
        | (true, it') => skipWhitespace it'
        | (false, it') => it'
      match it3 with
      | c :: it4 =>
        if c = quoteChar then
          match parseFormatBody it4 none [] with
          | .error e => .error e
          | .ok (fields, it5) =>
            match it5 with
            | c' :: it6 =>
              if c' = quoteChar then
                match it6 with
                | [] => .ok fields
                | ';' :: it7 =>
                  if (skipWhitespace it7).isEmpty then .ok fields
                  else .error .unexpectedEnd
                | _ :: _ => .error .unexpectedEnd
              else .error .missingFinalQuote
            | [] => .error .missingFinalQuote
        else .error .missingQuote
      | [] => .error .missingQuote
    | (false, it1) =>
      match parseFormatBody it1 none [] with
      | .error e => .error e
      | .ok (fields, it2) =>
        if it2.isEmpty then .ok fields else .error .unexpectedEnd

example : parseFormat "$remote_addr - $remote_user [$time_local]".toList
    = .ok [.field .remoteAddr, .str " - ".toList, .field .remoteUser,
           .str " [".toList, .field .timeLocal, .str "]".toList] := by decide

example : parseFormat "log_format combined '$remote_addr - $remote_user [$time_local]';".toList
    = .ok [.field .remoteAddr, .str " - ".toList, .field .remoteUser,
           .str " [".toList, .field .timeLocal, .str "]".toList] := by decide

/-! ## Line parser (`LogParserInner`, `log_parser.rs` lines 72-168) -/

/-- At least one character, all ASCII decimal digits, read as a `Nat`. -/
def parseDigits : List Char → Option Nat
  | [] => none
  | cs =>
    if cs.all Char.isDigit then
      some (cs.foldl (fun n c => n * 10 + (c.toNat - 48)) 0)
    else none

/-- Rust's `FromStr` for unsigned integers: an optional leading `+`, then at
least one decimal digit, and the value must fit below `bound` (overflow is an
error). -/
def rustParseNat (bound : Nat) (cs : List Char) : Option Nat :=
  let digits := match cs with
    | '+' :: rest => rest
    | _ => cs
  match parseDigits digits with
  | some n => if n < bound then some n else none
  | none => none

/-- `value.parse::<u16>()` (the `Status` conversion). -/
def parseU16 (cs : List Char) : Option Nat := rustParseNat 65536 cs

/-- `value.parse::<u64>()` (the `BodyBytesSent` conversion). -/
def parseU64 (cs : List Char) : Option Nat := rustParseNat (2 ^ 64) cs

/-- The `LogToken::Str` arm of `LogParserInner::parse` (lines 95-112): match
the literal's characters one by one against the line; a mismatch or premature
end of line is the "Expected ..., found ..." error; when the literal is
exhausted the cursor rests on the rest of the line. -/
def matchLiteral : List Char → List Char → Except PError (List Char)
  | [], it => .ok it
  | e :: s, [] => .error (.expectedFound (e :: s))
  | e :: s, a :: it =>
    if e = a then matchLiteral s it else .error (.expectedFound (e :: s))

/-- The separator scan of the `LogToken::Field` arm (lines 123-137), entered
with a nonempty remainder: advance until the first occurrence of `sep`,
returning the characters before it as the field's value and leaving the cursor
on the separator; reaching end of line first is the "Missing separator"
error. -/
def readToSep (sep : Char) : List Char → Except PError (List Char × List Char)
  | [] => .error (.missingSeparator sep)
  | c :: it =>
    if c = sep then .ok ([], c :: it)
    else
      match readToSep sep it with
      | .ok (v, it') => .ok (c :: v, it')
      | .error e => .error e

/-- The `match f { ... }` push at lines 152-162: wrap the extracted value in
the matching `LogValue`, running the fallible numeric conversions for
`Status` (`u16`) and `BodyBytesSent` (`u64`); the code reports "Invalid status
code" for both. -/
def mkValue : LogField → List Char → Except PError LogValue
  | .remoteAddr, v => .ok (.remoteAddr v)
  | .remoteUser, v => .ok (.remoteUser v)
  | .timeLocal, v => .ok (.timeLocal v)
  | .request, v => .ok (.request v)
  | .status, v =>
    match parseU16 v with
    | some n => .ok (.status n)
    | none => .error .invalidStatusCode
  | .bodyBytesSent, v =>
    match parseU64 v with
    | some n => .ok (.bodyBytesSent n)
    | none => .error .invalidStatusCode
  | .httpReferer, v => .ok (.httpReferer v)
  | .httpUserAgent, v => .ok (.httpUserAgent v)
  | .other name, v => .ok (.other name v)

/-- The value extraction for a field with a following separator (lines
120-142): with an exhausted line (`pos()` is `None`) the value is the empty
string without consulting the separator; otherwise scan with `readToSep`. -/
def extractField (sep : Char) (it : List Char) : Except PError (List Char × List Char) :=
  match it with
  | [] => .ok ([], [])
  | _ :: _ => readToSep sep it

/-- `LogParserInner::parse` (lines 89-167): walk the tokens in order against
the line.  A field's terminator is found by peeking one token ahead: a
following field token is the "no separator" error (raised before looking at
the line); a following literal's **first** character is the separator (the
`unwrap` on an empty literal would panic); no following token means the field
takes everything remaining.  With a separator but an already-exhausted line
the value is the empty string without error.  The iteration does not require
the line to be fully consumed after the final token.  To keep the recursion
structural on the token list, the loop iteration for the literal token that
follows a field is inlined into the field's own case (the source performs the
same two steps in consecutive iterations of its `for` loop: push the field's
converted value, then match the literal from the cursor left on the
separator). -/
def parseTokens : List LogToken → List Char → Except PError (List LogValue)
  | [], _ => .ok []
  | .str s :: rest, it =>
    match matchLiteral s it with
    | .error e => .error e
    | .ok it' => parseTokens rest it'
  | [.field f], it =>
    match mkValue f it with
    | .error e => .error e
    | .ok v => .ok [v]
  | .field f :: .field g :: _, _ => .error (.noSeparator f g)
  | .field _ :: .str [] :: _, _ => .error .panicEmptyLiteral
  | .field f :: .str (sep :: s) :: rest, it =>
    match extractField sep it with
    | .error e => .error e
    | .ok (value, it') =>
      match mkValue f value with
      | .error e => .error e
      | .ok v =>
        match matchLiteral (sep :: s) it' with
        | .error e => .error e
        | .ok it'' =>
          match parseTokens rest it'' with
          | .error e => .error e
          | .ok vs => .ok (v :: vs)

example : parseTokens
    [.field .remoteAddr, .str " - ".toList, .field .remoteUser, .str " [".toList,
     .field .timeLocal, .str "]".toList]
    "216.165.95.86 - remi [15/Oct/2021:15:39:52 +0000]".toList
    = .ok [.remoteAddr "216.165.95.86".toList, .remoteUser "remi".toList,
           .timeLocal "15/Oct/2021:15:39:52 +0000".toList] := by decide

/-! ## Declarative matching: lines satisfying every literal boundary

`Matches toks line pairs` is the specification-side description of a line that
"satisfies every literal boundary" of the compiled grammar `toks`: the line
decomposes, token by token, into each literal's exact text and one
substring per field, where a field followed by a literal contributes a chunk
free of that literal's first character (the separator), and a final field
contributes everything remaining (possibly empty).  `pairs` lists, in token
order, each field together with the substring bounded for it. -/
inductive Matches : List LogToken → List Char → List (LogField × List Char) → Prop where
  | nil (leftover : List Char) : Matches [] leftover []
  | lit (s : List Char) (rest : List LogToken) (it : List Char)
      (out : List (LogField × List Char)) :
      Matches rest it out → Matches (.str s :: rest) (s ++ it) out
  | lastField (f : LogField) (it : List Char) : Matches [.field f] it [(f, it)]
  | fieldSep (f : LogField) (sep : Char) (s : List Char) (rest : List LogToken)
      (v itRest : List Char) (out : List (LogField × List Char))
      (hv : sep ∉ v) (h : Matches (.str (sep :: s) :: rest) itRest out) :
      Matches (.field f :: .str (sep :: s) :: rest) (v ++ itRest) ((f, v) :: out)

/-- The value list the line parser produces from the bounded substrings: each
pair run through `mkValue` (so the parse succeeds exactly when every `Status`
and `BodyBytesSent` substring is a valid machine integer, and otherwise
reports the first conversion error). -/
def mkValues : List (LogField × List Char) → Except PError (List LogValue)
  | [] => .ok []
  | (f, v) :: rest =>
    match mkValue f v with
    | .error e => .error e
    | .ok x =>
      match mkValues rest with
      | .error e => .error e
      | .ok xs => .ok (x :: xs)

theorem matchLiteral_self (s it : List Char) : matchLiteral s (s ++ it) = .ok it := by
  induction s with
  | nil => rfl
  | cons c s ih => simp [matchLiteral, ih]

theorem readToSep_append (sep : Char) (v rest : List Char) (hv : sep ∉ v) :
    readToSep sep (v ++ sep :: rest) = .ok (v, sep :: rest) := by
  induction v with
  | nil => simp [readToSep]
  | cons c v ih =>
    have hc : ¬c = sep := fun h => hv (h ▸ List.mem_cons_self c v)
    have hv' : sep ∉ v := fun h => hv (List.mem_cons_of_mem c h)
    simp [readToSep, hc, ih hv']

theorem extractField_append (sep : Char) (v rest : List Char) (hv : sep ∉ v) :
    extractField sep (v ++ sep :: rest) = .ok (v, sep :: rest) := by
  cases v with
  | nil => simp [extractField, readToSep]
  | cons c v =>
    simpa [extractField] using readToSep_append sep (c :: v) rest hv

/-- **C2 (amended).** For every grammar and every line that satisfies every
literal boundary (`Matches toks line pairs`), the line parser returns exactly
one value per `Field` token, in token order, built from the substring bounded
by the surrounding literals — the substring itself for string-typed fields,
its integer conversion for `status` / `body_bytes_sent` — and it succeeds
precisely when every such conversion succeeds (`parseTokens toks line =
mkValues pairs`); a field that is the final token receives everything
remaining, including the empty string (the `lastField` rule of `Matches`). -/
theorem c2_parse_eq_mkValues_of_matches (toks : List LogToken) (line : List Char)
    (pairs : List (LogField × List Char)) (h : Matches toks line pairs) :
    parseTokens toks line = mkValues pairs := by
  induction h with
  | nil leftover => rfl
  | lit s rest it out h ih => simp only [parseTokens, matchLiteral_self, ih]
  | lastField f it =>
    simp only [parseTokens, mkValues]
  | fieldSep f sep s rest v itRest out hv h ih =>
    cases h with
    | lit _ _ it2 _ h2 =>
      have hext := extractField_append sep v (s ++ it2) hv
      have ih' : parseTokens rest it2 = mkValues out := by
        simp only [parseTokens, matchLiteral_self] at ih
        exact ih
      have hml : matchLiteral (sep :: s) (sep :: (s ++ it2)) = .ok it2 :=
        matchLiteral_self (sep :: s) it2
      simp only [parseTokens, mkValues, List.cons_append, List.nil_append] at hext ⊢
      simp only [hext, hml, ih']

/-! ## Filters and extractors (`processor.rs` lines 12-98)

`FilterFunc` has (with the `re` feature) the single variant
`Regex { regex }`, applied through `regex.is_match(value)`; the external regex
engine is abstracted to the Boolean predicate it denotes.  Likewise
`ExtractorFunc::Regex { target, regex }` computes `regex.replace(value,
target)`, abstracted to the text transformation it denotes.  `f32` duration
values are abstracted to their source text (see the header). -/

/-- `struct Filter` (`processor.rs` lines 12-15); `func` is the predicate
denoted by `FilterFunc::Regex`'s `is_match` (named `LogFilter` here because
Lean's library already takes the name `Filter`). -/
structure LogFilter where
  field_index : Nat
  func : List Char → Bool

/-- `enum ExtractorFunc` (`processor.rs` lines 44-55). -/
inductive ExtractorFunc where
  | user
  | status
  | duration
  | host
  | responseBodySize
  /-- `Regex { target, regex }`, abstracted to `regex.replace(value, target)`
  as a text transformation -/
  | regex (replace : List Char → List Char)

/-- `struct Extractor` (`processor.rs` lines 38-42). -/
structure Extractor where
  label : Option (String × Nat)
  field_index : Nat
  func : ExtractorFunc

/-- Rust's grammar for the exponent suffix of an `f32` literal
(`[eE][+-]?digits`), or nothing. -/
def floatExpOk : List Char → Bool
  | [] => true
  | c :: rest =>
    (c = 'e' || c = 'E') &&
      match rest with
      | [] => false
      | s :: r =>
        if s = '+' || s = '-' then !r.isEmpty && r.all Char.isDigit
        else !rest.isEmpty && rest.all Char.isDigit

/-- Rust's grammar for the mantissa of a finite `f32` literal:
`digits ['.' [digits]] [exp]` or `'.' digits [exp]`. -/
def floatNumberOk (cs : List Char) : Bool :=
  let intPart := cs.takeWhile Char.isDigit
  let rest := cs.dropWhile Char.isDigit
  if intPart.isEmpty then
    match rest with
    | '.' :: r2 =>
      !(r2.takeWhile Char.isDigit).isEmpty && floatExpOk (r2.dropWhile Char.isDigit)
    | _ => false
  else
    match rest with
    | '.' :: r2 => floatExpOk (r2.dropWhile Char.isDigit)
    | r => floatExpOk r

/-- Lowercase an ASCII letter (for the case-insensitive special float
spellings). -/
def asciiLower (c : Char) : Char :=
  if 'A' ≤ c && c ≤ 'Z' then Char.ofNat (c.toNat + 32) else c

/-- The special float spellings `inf`, `infinity`, `nan` (case-insensitive). -/
def floatSpecialOk (cs : List Char) : Bool :=
  let l := cs.map asciiLower
  l = "inf".toList || l = "infinity".toList || l = "nan".toList

/-- `value.parse::<f32>()` success: optional sign, then a special spelling or
a number per Rust's `FromStr` grammar for floats. -/
def rustF32Ok (cs : List Char) : Bool :=
  let body := match cs with
    | c :: r => if c = '+' || c = '-' then r else cs
    | [] => cs
  floatSpecialOk body || floatNumberOk body

/-- `value.parse::<f32>()`, with a successfully parsed duration abstracted to
its source text (its numeric value is a float, which no claim consumes). -/
def parseF32 (cs : List Char) : Option (List Char) :=
  if rustF32Ok cs then some cs else none

/-- The `set_label` closure of `Extractor::extract` (`processor.rs` lines
59-65) followed by the slice write `labels[label_index] = label`: an extractor
without a target label panics ("Extractor with no target label tried to set a
label"), and an out-of-bounds index would panic in Rust's index operator. -/
def setLabel (lab : Option (String × Nat)) (labels : List (List Char)) (v : List Char) :
    Except PError (List (List Char)) :=
  match lab with
  | some (_, idx) =>
    if idx < labels.length then .ok (labels.set idx v) else .error .panicIndexOutOfBounds
  | none => .error .panicNoTargetLabel

/-- `Extractor::extract` (`processor.rs` lines 57-98).  State threaded
explicitly: the label slot array and the two optional scalar outputs.
`Status` sets its label through `value.parse::<String>()`, which is
infallible, so the raw value is copied verbatim (its `map_err` can never
fire). -/
def Extractor.extract (e : Extractor) (value : List Char) (labels : List (List Char))
    (dur : Option (List Char)) (size : Option Nat) :
    Except PError (List (List Char) × Option (List Char) × Option Nat) :=
  match e.func with
  | .user =>
    if value ≠ "-".toList then
      match setLabel e.label labels "yes".toList with
      | .error err => .error err
      | .ok labels' => .ok (labels', dur, size)
    else
      match setLabel e.label labels "no".toList with
      | .error err => .error err
      | .ok labels' => .ok (labels', dur, size)
  | .status =>
    match setLabel e.label labels value with
    | .error err => .error err
    | .ok labels' => .ok (labels', dur, size)
  | .duration =>
    match parseF32 value with
    | some d => .ok (labels, some d, size)
    | none => .error .invalidDuration
  | .host =>
    match setLabel e.label labels value with
    | .error err => .error err
    | .ok labels' => .ok (labels', dur, size)
  | .responseBodySize =>
    match parseU64 value with
    | some n => .ok (labels, dur, some n)
    | none => .error .invalidNumberOfBytes
  | .regex replace =>
    match setLabel e.label labels (replace value) with
    | .error err => .error err
    | .ok labels' => .ok (labels', dur, size)

/-! ## Line processor (`LogProcessor::process_line`, `processor.rs` lines
226-263)

`process_line` iterates over the parsed values with two monotonically
advancing cursors into the filter and extractor lists.  Because the cursors
only ever move forward, the remaining suffix of each list is the whole cursor
state, so the loops are embedded as functions consuming those suffixes.

`process_line` reads each parsed value through the struct pattern
`let LogValue { value, .. } = value`, i.e. it consumes only each field's raw
text.  (The `LogValue` this pattern expects is a revision of `log_parser.rs`
that is not the one under `src/`; see `parseValuesRaw` below.) -/

/-- The filter `while` loop at one field position (`processor.rs` lines
245-252): run every filter whose `field_index` equals the current position, in
order; `none` means some predicate rejected the value (`process_line` then
returns `Ok(false)`), otherwise the advanced cursor (remaining suffix) is
returned. -/
def runFilters (fieldIndex : Nat) (value : List Char) :
    List LogFilter → Option (List LogFilter)
  | [] => some []
  | f :: rest =>
    if f.field_index = fieldIndex then
      if f.func value then runFilters fieldIndex value rest else none
    else some (f :: rest)

/-- The extractor `while` loop at one field position (`processor.rs` lines
254-259): run every extractor whose `field_index` equals the current position,
in order, threading the label array and the two scalar outputs; an extraction
error aborts `process_line` with that error. -/
def runExtractors (fieldIndex : Nat) (value : List Char) :
    List Extractor → List (List Char) → Option (List Char) → Option Nat →
    Except PError (List Extractor × List (List Char) × Option (List Char) × Option Nat)
  | [], labels, dur, size => .ok ([], labels, dur, size)
  | e :: rest, labels, dur, size =>
    if e.field_index = fieldIndex then
      match e.extract value labels dur size with
      | .error err => .error err
      | .ok (labels', dur', size') => runExtractors fieldIndex value rest labels' dur' size'
    else .ok (e :: rest, labels, dur, size)

/-- The `for (field_index, value)` loop of `process_line` (lines 241-260):
filters first, then extractors, at each field position in order.  The result
mirrors `Result<bool, ParseError>`: `.ok (false, ...)` is the Filtered
outcome, `.ok (true, labels, duration, size)` the Matched outcome with the
final output state. -/
def processValues (values : List (List Char)) (fieldIndex : Nat)
    (filters : List LogFilter) (extractors : List Extractor)
    (labels : List (List Char)) (dur : Option (List Char)) (size : Option Nat) :
    Except PError (Bool × List (List Char) × Option (List Char) × Option Nat) :=
  match values with
  | [] => .ok (true, labels, dur, size)
  | v :: vs =>
    match runFilters fieldIndex v filters with
    | none => .ok (false, labels, dur, size)
    | some filters' =>
      match runExtractors fieldIndex v extractors labels dur size with
      | .error e => .error e
      | .ok (extractors', labels', dur', size') =>
        processValues vs (fieldIndex + 1) filters' extractors' labels' dur' size'

/-- Modelled from the spec: `process_line` destructures the parser's output as
`LogValue { value, .. }` — a struct revision of `log_parser.rs` that is not
the version under `src/` (which holds the earlier `enum LogValue`).  Per
§ 4.2 of the specification that parser returns ordered (field name, value)
pairs whose values are exactly the substrings bounded by the literals, with no
numeric conversion; this function is the same token walk as `parseTokens`
with every field's raw substring kept verbatim. -/
def parseValuesRaw : List LogToken → List Char → Except PError (List (List Char))
  | [], _ => .ok []
  | .str s :: rest, it =>
    match matchLiteral s it with
    | .error e => .error e
    | .ok it' => parseValuesRaw rest it'
  | [.field _], it => .ok [it]
  | .field f :: .field g :: _, _ => .error (.noSeparator f g)
  | .field _ :: .str [] :: _, _ => .error .panicEmptyLiteral
  | .field _ :: .str (sep :: s) :: rest, it =>
    match extractField sep it with
    | .error e => .error e
    | .ok (value, it') =>
      match matchLiteral (sep :: s) it' with
      | .error e => .error e
      | .ok it'' =>
        match parseValuesRaw rest it'' with
        | .error e => .error e
        | .ok vs => .ok (value :: vs)

/-- `struct LogProcessor` (`processor.rs` lines 100-107), restricted to the
fields the event loop reads (the shared metrics handle is threaded separately,
and the file path lives in the I/O layer). -/
structure LogProcessor where
  tokens : List LogToken
  labels : List String
  filters : List LogFilter
  extractors : List Extractor

/-- `process_line` (`processor.rs` lines 226-263): parse the line, then walk
the values with the filter/extractor cursors.  The label slots start from the
caller-supplied array (`watch_log` passes one filled with `"unk"`). -/
def LogProcessor.processLine (p : LogProcessor) (line : List Char)
    (labelValues : List (List Char)) :
    Except PError (Bool × List (List Char) × Option (List Char) × Option Nat) :=
  match parseValuesRaw p.tokens line with
  | .error e => .error e
  | .ok values => processValues values 0 p.filters p.extractors labelValues none none

/-! ## Tail engine (`LogProcessor::watch_log`, `processor.rs` lines 125-224) -/

/-- The shared metrics state (`struct LogData`, `collector.rs` lines 10-16)
as seen by this core: the `active` flag, the unlabeled error counter, and the
labeled counter/histogram updates summarized by how many times each was
bumped (their label vectors and float observations live in the external
prometheus crate). -/
structure SharedData where
  active : Bool
  requestCount : Nat
  durationObsCount : Nat
  sizeObsCount : Nat
  errorCount : Nat
  deriving DecidableEq, Repr

/-- The per-line body of the split loop (`processor.rs` lines 189-218): fresh
`"unk"`-initialized label slots, `process_line`, then either the error counter
(on `Err`), nothing (on `Ok(false)`), or the counter/histogram updates (on
`Ok(true)`). -/
def processOneLine (p : LogProcessor) (sh : SharedData) (line : List Char) : SharedData :=
  match p.processLine line (List.replicate p.labels.length "unk".toList) with
  | .error _ => { sh with errorCount := sh.errorCount + 1 }
  | .ok (false, _, _, _) => sh
  | .ok (true, _, dur, size) =>
    { sh with
      requestCount := sh.requestCount + 1
      durationObsCount := sh.durationObsCount + (if dur.isSome then 1 else 0)
      sizeObsCount := sh.sizeObsCount + (if size.isSome then 1 else 0) }

/-- Feed a batch of complete lines, in order, to the line processor and the
metrics sink (the `while let Some(ln) = ...` loop's per-line work). -/
def processAll (p : LogProcessor) (sh : SharedData) (lines : List (List Char)) : SharedData :=
  lines.foldl (processOneLine p) sh

/-- The newline-splitting loop (`processor.rs` lines 182-222), scanning the
carry-over buffer character by character: `acc` is the portion of the current
line read so far (the text between `read_to` and the scan position).  Returns
the complete lines in order and the retained trailing partial line (the
buffer after `buffer.drain(0..read_to)`). -/
def splitLinesGo : List Char → List Char → List (List Char) × List Char
  | acc, [] => ([], acc)
  | acc, c :: rest =>
    if c = '\n' then
      let (ls, rem) := splitLinesGo [] rest
      (acc :: ls, rem)
    else splitLinesGo (acc ++ [c]) rest

/-- Split a buffer at newline boundaries: zero or more complete lines
(newline terminators removed) plus the trailing partial line. -/
def splitLines (buffer : List Char) : List (List Char) × List Char :=
  splitLinesGo [] buffer

/-- The truncation check (`processor.rs` lines 170-175): the offset the engine
seeks to before reading — reset to the current file size when that size is
smaller than the stored offset, untouched otherwise. -/
def seekOffset (offset size : Nat) : Nat :=
  if size < offset then size else offset

/-- The tail engine's per-file state inside one `watch_log` run: the stored
byte offset and the carry-over buffer of not-yet-terminated bytes. -/
structure TailState where
  offset : Nat
  buffer : List Char
  deriving DecidableEq, Repr

/-- The classification of one `notify::RawEvent` by the `match event.op` at
`processor.rs` lines 156-163. -/
inductive EventKind where
  /-- `Ok(op)` with `op ⊆ WRITE | CLOSE_WRITE`: data was written -/
  | write
  /-- `Ok(op)` with any other operation (rename, remove, ...): restart the
  watch -/
  | other
  /-- `Err(e)`: the event channel reported an error (fatal) -/
  | opError
  deriving DecidableEq, Repr

/-- The result of one iteration of the event loop. -/
inductive StepResult where
  /-- continue looping with the new tail state and shared state, having fed
  `fed` complete lines (in order) to the line processor -/
  | next (st : TailState) (sh : SharedData) (fed : List (List Char))
  /-- `return Ok(())` after clearing `active` (rotation/removal; the caller
  sleeps and reopens) -/
  | reopen (sh : SharedData)
  /-- `return Err(..)` (the process exits) -/
  | fatal
  deriving DecidableEq, Repr

/-- One iteration of the `watch_log` event loop (`processor.rs` lines
151-223), over one received event.  The file I/O results are inputs: `size`
is what `file.seek(SeekFrom::End(0))` reports, and `bytes` is what
`read_to_string` appends from the seek offset (so `offset` advances by
`bytes.length`). -/
def loopStep (p : LogProcessor) (st : TailState) (sh : SharedData)
    (ev : EventKind) (size : Nat) (bytes : List Char) : StepResult :=
  match ev with
  | .opError => .fatal
  | .other => .reopen { sh with active := false }
  | .write =>
    let offset1 := seekOffset st.offset size
    let buf := st.buffer ++ bytes
    let (lines, rem) := splitLines buf
    .next { offset := offset1 + bytes.length, buffer := rem }
      (processAll p sh lines) lines

/-- The outcome of `watch_log`'s setup phase (`processor.rs` lines 128-149),
before the event loop is entered. -/
inductive InitOutcome where
  /-- `return Ok(())` before the loop (the caller retries after a cool-down) -/
  | cleanReturn (sh : SharedData)
  /-- `return Err(..)` (the process exits) -/
  | fatalInit
  /-- the loop is entered with this shared state and tail state -/
  | loopEntered (sh : SharedData) (st : TailState)
  deriving DecidableEq, Repr

/-- How `OpenOptions::open` went (`processor.rs` lines 128-138): opened (with
the size that the subsequent seek-to-end reports), `NotFound`, or any other
error. -/
inductive OpenResult where
  | opened (size : Nat)
  | notFound
  | otherError
  deriving DecidableEq, Repr

/-- `watch_log`'s setup (`processor.rs` lines 128-149): open the file — on
`NotFound` log and `return Ok(())` (without touching `active`), on any other
error `return Err`; then create the watcher and register the watch (`watchOk`
false models either step failing, which is `Err` via `?`); then seek to
end-of-file for the starting offset, set `active = true`, and enter the loop
with an empty carry-over buffer. -/
def watchLogInit (sh : SharedData) (openRes : OpenResult) (watchOk : Bool) : InitOutcome :=
  match openRes with
  | .notFound => .cleanReturn sh
  | .otherError => .fatalInit
  | .opened size =>
    if watchOk then
      .loopEntered { sh with active := true } { offset := size, buffer := [] }
    else .fatalInit

/-! ## Pipeline builder (`LogCollectorBuilder`, `collector.rs` lines 40-150) -/

/-- Modelled from the spec: the `fields()` accessor of `LogParser` that
`collector.rs` iterates (the `log_parser.rs` revision under `src/` does not
define it).  Per § 3 of the specification, Fields is "the ordered list of
field names taken from `Field` tokens, in declaration order, duplicates
allowed".  The name under which each placeholder was declared is recovered
from the token (`fieldOfName` is injective on identifiers, each recognized
variant standing for its source spelling). -/
def fieldsOf (tokens : List LogToken) : List String :=
  tokens.filterMap fun t =>
    match t with
    | .str _ => none
    | .field .remoteAddr => some "remote_addr"
    | .field .remoteUser => some "remote_user"
    | .field .timeLocal => some "time_local"
    | .field .request => some "request"
    | .field .status => some "status"
    | .field .bodyBytesSent => some "body_bytes_sent"
    | .field .httpReferer => some "http_referer"
    | .field .httpUserAgent => some "http_user_agent"
    | .field (.other name) => some name

/-- `LogCollectorBuilder::label` (`collector.rs` lines 50-58): the index of
the label in the array, adding it if it's not there.  Returns the index and
the (possibly extended) label list. -/
def LogCollectorBuilder.label (labels : List String) (lab : String) : Nat × List String :=
  match labels.findIdx? (· = lab) with
  | some i => (i, labels)
  | none => (labels.length, labels ++ [lab])

/-- `struct LogCollectorBuilder` (`collector.rs` lines 40-46), with the
parser represented by its Fields list (the only part the builder reads). -/
structure Builder where
  fields : List String
  filters : List LogFilter
  extractors : List Extractor
  labels : List String

/-- The `add_extractor` closure inside `LogCollectorBuilder::new`
(`collector.rs` lines 65-74): resolve the optional label name to a slot via
`label`, then push the extractor. -/
def addAuto (st : List Extractor × List String) (fieldIndex : Nat)
    (lab : Option String) (func : ExtractorFunc) : List Extractor × List String :=
  match lab with
  | some l =>
    let (idx, labels') := LogCollectorBuilder.label st.2 l
    (st.1 ++ [⟨some (l, idx), fieldIndex, func⟩], labels')
  | none => (st.1 ++ [⟨none, fieldIndex, func⟩], st.2)

/-- The `for (field_index, field)` loop of `LogCollectorBuilder::new`
(`collector.rs` lines 75-87): auto-register an extractor for each recognized
field name, walking the fields with their indices. -/
def autoLoop : List String → Nat → List Extractor × List String → List Extractor × List String
  | [], _, st => st
  | f :: rest, i, st =>
    let st' :=
      if f = "remote_user" then addAuto st i (some "user") .user
      else if f = "status" then addAuto st i (some "status") .status
      else if f = "request_time" then addAuto st i none .duration
      else if f = "host" then addAuto st i (some "vhost") .host
      else if f = "body_bytes_sent" then addAuto st i none .responseBodySize
      else st
    autoLoop rest (i + 1) st'

/-- `LogCollectorBuilder::new` (`collector.rs` lines 60-96). -/
def LogCollectorBuilder.new (fields : List String) : Builder :=
  let (extractors, labels) := autoLoop fields 0 ([], [])
  { fields := fields, filters := [], extractors := extractors, labels := labels }

/-- `LogCollectorBuilder::add_filter` (`collector.rs` lines 98-110): resolve
the field name to its first position; an unknown name is `Err(())` and leaves
the builder untouched.  The Boolean is the call's success. -/
def LogCollectorBuilder.addFilter (b : Builder) (field : String)
    (func : List Char → Bool) : Builder × Bool :=
  match b.fields.findIdx? (· = field) with
  | some i => ({ b with filters := b.filters ++ [⟨i, func⟩] }, true)
  | none => (b, false)

/-- `LogCollectorBuilder::add_extractor` (`collector.rs` lines 112-132): the
label slot is resolved (mutating the label list) *before* the field name is
looked up, so a failing call can still have extended the label list. -/
def LogCollectorBuilder.addExtractor (b : Builder) (lab : Option String)
    (field : String) (func : ExtractorFunc) : Builder × Bool :=
  let resolved : Option (String × Nat) × List String :=
    match lab with
    | some l =>
      let (idx, labels') := LogCollectorBuilder.label b.labels l
      (some (l, idx), labels')
    | none => (none, b.labels)
  match b.fields.findIdx? (· = field) with
  | some i =>
    ({ b with
        labels := resolved.2
        extractors := b.extractors ++ [⟨resolved.1, i, func⟩] }, true)
  | none => ({ b with labels := resolved.2 }, false)

/-- `LogCollectorBuilder::build_processor` (`collector.rs` lines 134-150):
stable-sort filters and extractors by field position (Rust's `sort_by` on
`Vec` is stable) and assemble the processor. -/
def Builder.buildProcessor (b : Builder) (tokens : List LogToken) : LogProcessor :=
  { tokens := tokens
    labels := b.labels
    filters := b.filters.mergeSort (fun a b => a.field_index ≤ b.field_index)
    extractors := b.extractors.mergeSort (fun a b => a.field_index ≤ b.field_index) }

/-- The builders reachable through the public API: `new` followed by any
sequence of `add_filter` / `add_extractor` calls (successful or not). -/
inductive BuilderReached : Builder → Prop where
  | base (fields : List String) : BuilderReached (LogCollectorBuilder.new fields)
  | filt (b : Builder) (field : String) (func : List Char → Bool) :
      BuilderReached b → BuilderReached (LogCollectorBuilder.addFilter b field func).1
  | ext (b : Builder) (lab : Option String) (field : String) (func : ExtractorFunc) :
      BuilderReached b → BuilderReached (LogCollectorBuilder.addExtractor b lab field func).1

/-- The body loop never produces the "Empty string" error (that error is
raised only by the all-whitespace check at the top of
`LogFormatParser::parse`). -/
theorem parseFormatBody_ne_emptyString :
    ∀ (it : List Char) (mode : Option (List Char)) (fields : List LogToken),
    parseFormatBody it mode fields ≠ .error .emptyString := by
  intro it
  induction it with
  | nil =>
    intro mode fields
    cases mode with
    | none => simp [parseFormatBody]
    | some acc =>
      simp only [parseFormatBody]
      split <;> simp
  | cons c it ih =>
    intro mode fields
    cases mode with
    | none =>
      simp only [parseFormatBody]
      split
      · simp
      · split
        · exact ih _ _
        · exact ih _ _
    | some acc =>
      simp only [parseFormatBody]
      split
      · exact ih _ _
      · split
        · simp
        · split
          · simp
          · split
            · exact ih _ _
            · exact ih _ _

/-! ## Claims -/

/-- **C1 (counterexample).** The format description `$a$b` — two consecutive
field placeholders with no intervening literal — is *not* rejected by the
format compiler: it compiles to two consecutive `Field` tokens, and the line
parser's "no separator between fields" error branch is then reached at parse
time (here on the line `x`), contradicting the claim that the error is
compile-time only. -/
theorem c1_counterexample :
    parseFormat "$a$b".toList = .ok [.field (.other "a"), .field (.other "b")]
    ∧ parseTokens [.field (.other "a"), .field (.other "b")] "x".toList
        = .error (.noSeparator (.other "a") (.other "b")) := by
  exact ⟨by decide, by decide⟩

/-- **C1 (amended).** The format compiler accepts two consecutive field
placeholders with no intervening literal (`$a$b` compiles to two consecutive
`Field` tokens); the "no separator between fields" error is instead raised by
the line parser at parse time, for every input line, whenever the compiled
grammar has a `Field` token directly followed by another `Field` token at the
cursor. -/
theorem c1_consecutive_fields_error_at_parse_time :
    parseFormat "$a$b".toList = .ok [.field (.other "a"), .field (.other "b")]
    ∧ ∀ (f g : LogField) (rest : List LogToken) (line : List Char),
        parseTokens (.field f :: .field g :: rest) line = .error (.noSeparator f g) := by
  refine ⟨by decide, fun f g rest line => rfl⟩

/-- **C10.** The format compiler accepts an empty quoted body
(`log_format '';` compiles to the empty token sequence); the "Empty string"
error fires exactly when the entire description is whitespace (in particular
when it is empty); and a parser whose token sequence is empty succeeds with an
empty value list on every input line. -/
theorem c10_empty_body_and_empty_grammar :
    parseFormat "log_format '';".toList = .ok []
    ∧ (∀ fmt : List Char, parseFormat fmt = .error .emptyString ↔ fmt.all Char.isWhitespace)
    ∧ (∀ line : List Char, parseTokens [] line = .ok []) := by
  refine ⟨by decide, fun fmt => ?_, fun line => rfl⟩
  have hiff : (skipWhitespace fmt).isEmpty = true ↔ fmt.all Char.isWhitespace := by
    simp [skipWhitespace, List.isEmpty_iff, List.dropWhile_eq_nil_iff, List.all_eq_true]
  constructor
  · intro h
    rw [← hiff]
    by_contra hne
    rw [Bool.not_eq_true] at hne
    rw [parseFormat] at h
    simp only [hne, Bool.false_eq_true, if_false] at h
    repeat' split at h
    all_goals try simp_all
    all_goals exact parseFormatBody_ne_emptyString _ _ _ (by assumption)
  · intro h
    rw [← hiff] at h
    rw [parseFormat]
    simp only [h, if_true]

/-- **C5.** `LogCollectorBuilder::label` is idempotent per name: a name whose
first occurrence in the label list is at index `i` gets back `i` with the list
unchanged; a name not in the list is appended and gets the new last index
(the old length); consequently a duplicate-free label list stays
duplicate-free, so the incrementally built list never holds two equal names
and indices reflect first-seen order. -/
theorem c5_label_registration_idempotent (labels : List String) (lab : String) :
    (∀ i, labels.findIdx? (· = lab) = some i →
        LogCollectorBuilder.label labels lab = (i, labels))
    ∧ (labels.findIdx? (· = lab) = none →
        LogCollectorBuilder.label labels lab = (labels.length, labels ++ [lab]))
    ∧ (labels.Nodup → (LogCollectorBuilder.label labels lab).2.Nodup) := by
  refine ⟨fun i h => ?_, fun h => ?_, fun hnd => ?_⟩
  · simp [LogCollectorBuilder.label, h]
  · simp [LogCollectorBuilder.label, h]
  · cases hf : labels.findIdx? (· = lab) with
    | some i => simpa [LogCollectorBuilder.label, hf] using hnd
    | none =>
      have hmem : lab ∉ labels := by
        intro hm
        have := List.findIdx?_eq_none_iff.mp hf lab hm
        simp at this
      simp only [LogCollectorBuilder.label, hf]
      rw [List.nodup_append]
      exact ⟨hnd, List.nodup_singleton lab, by
        intro x hx hx'
        simp at hx'
        exact hmem (hx' ▸ hx)⟩

/-- **C5 (witness).** Concrete instances of all three parts: re-requesting
`"user"` in `["user"]` returns index 0 and the list unchanged; requesting the
fresh `"vhost"` appends it at index 1; and the resulting list is
duplicate-free. -/
theorem c5_witness :
    LogCollectorBuilder.label ["user"] "user" = (0, ["user"])
    ∧ LogCollectorBuilder.label ["user"] "vhost" = (1, ["user", "vhost"])
    ∧ (LogCollectorBuilder.label ["user"] "vhost").2.Nodup := by
  refine ⟨(c5_label_registration_idempotent ["user"] "user").1 0 (by decide), ?_, ?_⟩
  · exact ((c5_label_registration_idempotent ["user"] "vhost").2.1 (by decide)).trans (by decide)
  · exact (c5_label_registration_idempotent ["user"] "vhost").2.2 (by decide)

theorem splitLinesGo_no_newline (b : List Char) :
    ∀ acc : List Char, '\n' ∉ acc → '\n' ∉ (splitLinesGo acc b).2 := by
  induction b with
  | nil => intro acc hacc; simpa [splitLinesGo] using hacc
  | cons c b ih =>
    intro acc hacc
    by_cases hc : c = '\n'
    · subst hc
      rcases hq : splitLinesGo [] b with ⟨ls, rem⟩
      have := ih [] (by simp)
      rw [hq] at this
      simpa [splitLinesGo, hq] using this
    · have hacc' : '\n' ∉ acc ++ [c] := by
        intro hm
        rcases List.mem_append.mp hm with hm | hm
        · exact hacc hm
        · simp at hm; exact hc hm.symm
      have := ih (acc ++ [c]) hacc'
      simpa [splitLinesGo, hc] using this

theorem splitLinesGo_join (b : List Char) :
    ∀ acc : List Char,
    (((splitLinesGo acc b).1.map (· ++ ['\n'])).flatten) ++ (splitLinesGo acc b).2 = acc ++ b := by
  induction b with
  | nil => intro acc; simp [splitLinesGo]
  | cons c b ih =>
    intro acc
    by_cases hc : c = '\n'
    · subst hc
      rcases hq : splitLinesGo [] b with ⟨ls, rem⟩
      have hb := ih []
      rw [hq] at hb
      simp only [List.nil_append] at hb
      simp [splitLinesGo, hq, List.append_assoc, hb]
    · have hb := ih (acc ++ [c])
      simp only [List.append_assoc, List.singleton_append] at hb
      simpa [splitLinesGo, hc] using hb

/-- **C6.** Whenever a write event's freshly read file size is smaller than
the stored offset, the event-loop iteration resets the seek offset to that
size, raises no error, keeps looping, and resumes reading from the reset
position (the offset after reading is the new size plus the number of bytes
read from there). -/
theorem c6_truncation_resets_offset (p : LogProcessor) (st : TailState) (sh : SharedData)
    (size : Nat) (bytes : List Char) (h : size < st.offset) :
    seekOffset st.offset size = size
    ∧ loopStep p st sh .write size bytes
        = .next { offset := size + bytes.length, buffer := (splitLines (st.buffer ++ bytes)).2 }
            (processAll p sh (splitLines (st.buffer ++ bytes)).1)
            (splitLines (st.buffer ++ bytes)).1 := by
  have hs : seekOffset st.offset size = size := by simp [seekOffset, h]
  refine ⟨hs, ?_⟩
  rcases hq : splitLines (st.buffer ++ bytes) with ⟨lines, rem⟩
  simp [loopStep, hs, hq]

/-- **C6 (witness).** A concrete truncation: stored offset 10, new size 3. -/
theorem c6_witness :
    seekOffset 10 3 = 3
    ∧ loopStep ⟨[], [], [], []⟩ ⟨10, "a".toList⟩ ⟨true, 0, 0, 0, 0⟩ .write 3 "b\nc".toList
        = .next { offset := 3 + "b\nc".toList.length,
                  buffer := (splitLines ("a".toList ++ "b\nc".toList)).2 }
            (processAll ⟨[], [], [], []⟩ ⟨true, 0, 0, 0, 0⟩
              (splitLines ("a".toList ++ "b\nc".toList)).1)
            (splitLines ("a".toList ++ "b\nc".toList)).1 :=
  c6_truncation_resets_offset ⟨[], [], [], []⟩ ⟨10, "a".toList⟩ ⟨true, 0, 0, 0, 0⟩ 3
    "b\nc".toList (by decide)

/-- **C7.** When opening the watched file fails with `NotFound`, `watch_log`
returns cleanly (an `Ok` result, no error) with the shared state — in
particular the `active` flag — untouched; and the loop (hence a true `active`
flag) is entered only when the open succeeded and the watch was established,
with an empty carry-over buffer. -/
theorem c7_missing_file_returns_cleanly (sh : SharedData) :
    (∀ watchOk : Bool, watchLogInit sh .notFound watchOk = .cleanReturn sh)
    ∧ ∀ (openRes : OpenResult) (w : Bool) (sh' : SharedData) (st' : TailState),
        watchLogInit sh openRes w = .loopEntered sh' st' →
        (∃ size, openRes = .opened size) ∧ w = true ∧ sh'.active = true ∧ st'.buffer = [] := by
  refine ⟨fun _ => rfl, fun openRes w sh' st' h => ?_⟩
  cases openRes with
  | notFound => cases h
  | otherError => cases h
  | opened size =>
    cases w with
    | false => simp [watchLogInit] at h
    | true =>
      simp only [watchLogInit, if_true] at h
      cases h
      exact ⟨⟨size, rfl⟩, rfl, rfl, rfl⟩

/-- **C7 (witness).** Both parts at concrete inputs: a missing file returns
cleanly with `active` still false; a successful open (size 5) and watch enters
the loop with `active` true. -/
theorem c7_witness :
    watchLogInit ⟨false, 0, 0, 0, 0⟩ .notFound true = .cleanReturn ⟨false, 0, 0, 0, 0⟩
    ∧ ((∃ size, OpenResult.opened 5 = .opened size) ∧ true = true
        ∧ (⟨true, 0, 0, 0, 0⟩ : SharedData).active = true
        ∧ (⟨5, []⟩ : TailState).buffer = []) :=
  ⟨(c7_missing_file_returns_cleanly ⟨false, 0, 0, 0, 0⟩).1 true,
   (c7_missing_file_returns_cleanly ⟨false, 0, 0, 0, 0⟩).2 (.opened 5) true
     ⟨true, 0, 0, 0, 0⟩ ⟨5, []⟩ (by decide)⟩

/-- **C8.** After every read-and-split iteration of the event loop (a write
event), the retained carry-over buffer contains no newline; the old buffer
plus the newly read bytes decompose exactly as the fed complete lines (each
with its terminating newline restored, in order) followed by the retained
buffer — so everything through the last newline was removed; the fed lines
are precisely the split of buffer-plus-bytes; and the shared state was
updated by feeding exactly those lines, in order, to the line processor. -/
theorem c8_complete_lines_drained (p : LogProcessor) (st : TailState) (sh : SharedData)
    (size : Nat) (bytes : List Char) (st' : TailState) (sh' : SharedData)
    (fed : List (List Char))
    (h : loopStep p st sh .write size bytes = .next st' sh' fed) :
    ('\n' ∉ st'.buffer)
    ∧ st.buffer ++ bytes = ((fed.map (· ++ ['\n'])).flatten) ++ st'.buffer
    ∧ fed = (splitLines (st.buffer ++ bytes)).1
    ∧ sh' = processAll p sh fed := by
  rcases hq : splitLines (st.buffer ++ bytes) with ⟨lines, rem⟩
  simp only [loopStep, hq] at h
  cases h
  refine ⟨?_, ?_, rfl, rfl⟩
  · have := splitLinesGo_no_newline (st.buffer ++ bytes) [] (by simp)
    rw [show splitLinesGo [] (st.buffer ++ bytes) = splitLines (st.buffer ++ bytes) from rfl,
      hq] at this
    exact this
  · have := splitLinesGo_join (st.buffer ++ bytes) []
    rw [show splitLinesGo [] (st.buffer ++ bytes) = splitLines (st.buffer ++ bytes) from rfl,
      hq] at this
    simpa using this.symm

/-- **C8 (witness).** A concrete iteration: carrying buffer `a`, reading
`b` + newline + `c` feeds the single complete line `ab` and retains `c`. -/
theorem c8_witness :
    ('\n' ∉ (⟨5 + "b\nc".toList.length, "c".toList⟩ : TailState).buffer)
    ∧ "a".toList ++ "b\nc".toList
        = (([("ab".toList)].map (· ++ ['\n'])).flatten)
            ++ (⟨5 + "b\nc".toList.length, "c".toList⟩ : TailState).buffer
    ∧ [("ab".toList)] = (splitLines ("a".toList ++ "b\nc".toList)).1
    ∧ (⟨true, 1, 0, 0, 0⟩ : SharedData)
        = processAll ⟨[], [], [], []⟩ ⟨true, 0, 0, 0, 0⟩ [("ab".toList)] :=
  c8_complete_lines_drained ⟨[], [], [], []⟩ ⟨5, "a".toList⟩ ⟨true, 0, 0, 0, 0⟩ 7
    "b\nc".toList ⟨5 + "b\nc".toList.length, "c".toList⟩ ⟨true, 1, 0, 0, 0⟩
    [("ab".toList)] (by decide)

/-! ## C3: a failing filter yields the Filtered outcome -/

/-- Whether an extractor's target-label slot exists (used to state when
`set_label` succeeds). -/
def hasLabelSlot (e : Extractor) (n : Nat) : Bool :=
  match e.label with
  | some (_, idx) => idx < n
  | none => false

/-- The success condition of `Extractor::extract` on a value, given the label
array's length: label-setting transforms need a valid slot; the numeric
transforms need their value to parse.  (Success is independent of the rest of
the threaded state.) -/
def extractOk (e : Extractor) (v : List Char) (n : Nat) : Bool :=
  match e.func with
  | .user => hasLabelSlot e n
  | .status => hasLabelSlot e n
  | .host => hasLabelSlot e n
  | .regex _ => hasLabelSlot e n
  | .duration => (parseF32 v).isSome
  | .responseBodySize => (parseU64 v).isSome

theorem extract_ok_of_extractOk (e : Extractor) (v : List Char)
    (labels : List (List Char)) (dur : Option (List Char)) (size : Option Nat)
    (h : extractOk e v labels.length = true) :
    ∃ labels' dur' size',
      e.extract v labels dur size = .ok (labels', dur', size')
      ∧ labels'.length = labels.length := by
  have hsl : ∀ w : List Char, hasLabelSlot e labels.length = true →
      ∃ labels', setLabel e.label labels w = .ok labels'
        ∧ labels'.length = labels.length := by
    intro w hh
    cases hl : e.label with
    | none => rw [hasLabelSlot, hl] at hh; cases hh
    | some p =>
      rcases p with ⟨n, idx⟩
      rw [hasLabelSlot, hl] at hh
      simp only [decide_eq_true_eq] at hh
      exact ⟨labels.set idx w, by simp [setLabel, hh], by simp⟩
  cases hf : e.func with
  | user =>
    rw [extractOk, hf] at h
    simp only [Extractor.extract, hf, ne_eq]
    split
    · obtain ⟨labels', hset, hlen⟩ := hsl "yes".toList h
      exact ⟨labels', dur, size, by rw [hset], hlen⟩
    · obtain ⟨labels', hset, hlen⟩ := hsl "no".toList h
      exact ⟨labels', dur, size, by rw [hset], hlen⟩
  | status =>
    rw [extractOk, hf] at h
    obtain ⟨labels', hset, hlen⟩ := hsl v h
    exact ⟨labels', dur, size, by simp [Extractor.extract, hf, hset], hlen⟩
  | host =>
    rw [extractOk, hf] at h
    obtain ⟨labels', hset, hlen⟩ := hsl v h
    exact ⟨labels', dur, size, by simp [Extractor.extract, hf, hset], hlen⟩
  | regex replace =>
    rw [extractOk, hf] at h
    obtain ⟨labels', hset, hlen⟩ := hsl (replace v) h
    exact ⟨labels', dur, size, by simp [Extractor.extract, hf, hset], hlen⟩
  | duration =>
    rw [extractOk, hf] at h
    cases hp : parseF32 v with
    | none => rw [hp] at h; cases h
    | some d => exact ⟨labels, some d, size, by simp [Extractor.extract, hf, hp], rfl⟩
  | responseBodySize =>
    rw [extractOk, hf] at h
    cases hp : parseU64 v with
    | none => rw [hp] at h; cases h
    | some n => exact ⟨labels, dur, some n, by simp [Extractor.extract, hf, hp], rfl⟩

/-- The filter loop rejects whenever the (sorted, not-yet-passed) filter list
contains a filter registered at the current position whose predicate rejects
the value. -/
theorem runFilters_rejects (fieldIndex : Nat) (v : List Char) :
    ∀ (fs : List LogFilter) (φ : LogFilter),
    φ ∈ fs →
    List.Pairwise (fun a b => a.field_index ≤ b.field_index) fs →
    (∀ f ∈ fs, fieldIndex ≤ f.field_index) →
    φ.field_index = fieldIndex →
    φ.func v = false →
    runFilters fieldIndex v fs = none := by
  intro fs
  induction fs with
  | nil => intro φ h; cases h
  | cons f rest ih =>
    intro φ hmem hsort hge hidx hrej
    rcases List.mem_cons.mp hmem with hphi | hphi
    · subst hphi
      simp [runFilters, hidx, hrej]
    · have h1 := hge f (List.mem_cons_self f rest)
      have h2 : f.field_index ≤ φ.field_index := (List.pairwise_cons.mp hsort).1 φ hphi
      have hf : f.field_index = fieldIndex := by omega
      by_cases hfv : f.func v
      · have := ih φ hphi (List.Pairwise.of_cons hsort)
          (fun g hg => hge g (List.mem_cons_of_mem f hg)) hidx hrej
        simp [runFilters, hf, hfv, this]
      · simp [runFilters, hf, hfv]

/-- When the filter loop passes, the remaining cursor suffix: is included in
the input, stays sorted, sits entirely at later positions, and retains every
input filter registered at a different position. -/
theorem runFilters_some (fieldIndex : Nat) (v : List Char) :
    ∀ (fs fs' : List LogFilter),
    runFilters fieldIndex v fs = some fs' →
    List.Pairwise (fun a b => a.field_index ≤ b.field_index) fs →
    (∀ f ∈ fs, fieldIndex ≤ f.field_index) →
    (∀ f ∈ fs', f ∈ fs)
    ∧ List.Pairwise (fun a b => a.field_index ≤ b.field_index) fs'
    ∧ (∀ f ∈ fs', fieldIndex + 1 ≤ f.field_index)
    ∧ (∀ f ∈ fs, f.field_index ≠ fieldIndex → f ∈ fs') := by
  intro fs
  induction fs with
  | nil =>
    intro fs' h _ _
    simp only [runFilters, Option.some.injEq] at h
    subst h
    exact ⟨by simp, by simp, by simp, by simp⟩
  | cons f rest ih =>
    intro fs' h hsort hge
    by_cases hf : f.field_index = fieldIndex
    · rw [runFilters, if_pos hf] at h
      by_cases hfv : f.func v
      · rw [if_pos hfv] at h
        obtain ⟨hsub, hsort', hgt, hkeep⟩ := ih fs' h (List.Pairwise.of_cons hsort)
          (fun g hg => hge g (List.mem_cons_of_mem f hg))
        refine ⟨fun g hg => List.mem_cons_of_mem f (hsub g hg), hsort', hgt, ?_⟩
        intro g hg hne
        rcases List.mem_cons.mp hg with hg | hg
        · subst hg; exact absurd hf hne
        · exact hkeep g hg hne
      · rw [if_neg hfv] at h; cases h
    · rw [runFilters, if_neg hf] at h
      rw [Option.some.injEq] at h
      subst h
      have h1 := hge f (List.mem_cons_self f rest)
      refine ⟨fun g hg => hg, hsort, ?_, fun g hg _ => hg⟩
      intro g hg
      rcases List.mem_cons.mp hg with hg | hg
      · subst hg; omega
      · have h2 : f.field_index ≤ g.field_index := (List.pairwise_cons.mp hsort).1 g hg
        omega

/-- When every extractor registered at the current position succeeds on the
value, the extractor loop succeeds; the remaining cursor suffix is included in
the input, stays sorted, sits entirely at later positions, and the label
array's length is preserved. -/
theorem runExtractors_ok (fieldIndex : Nat) (v : List Char) :
    ∀ (exs : List Extractor) (labels : List (List Char)) (dur : Option (List Char))
      (size : Option Nat),
    List.Pairwise (fun a b => a.field_index ≤ b.field_index) exs →
    (∀ e ∈ exs, fieldIndex ≤ e.field_index) →
    (∀ e ∈ exs, e.field_index = fieldIndex → extractOk e v labels.length = true) →
    ∃ exs' labels' dur' size',
      runExtractors fieldIndex v exs labels dur size = .ok (exs', labels', dur', size')
      ∧ labels'.length = labels.length
      ∧ (∀ e ∈ exs', e ∈ exs)
      ∧ List.Pairwise (fun a b => a.field_index ≤ b.field_index) exs'
      ∧ (∀ e ∈ exs', fieldIndex + 1 ≤ e.field_index) := by
  intro exs
  induction exs with
  | nil =>
    intro labels dur size _ _ _
    exact ⟨[], labels, dur, size, rfl, rfl, by simp, by simp, by simp⟩
  | cons e rest ih =>
    intro labels dur size hsort hge hok
    by_cases he : e.field_index = fieldIndex
    · obtain ⟨labels1, dur1, size1, hex, hlen1⟩ :=
        extract_ok_of_extractOk e v labels dur size (hok e (List.mem_cons_self e rest) he)
      obtain ⟨exs', labels', dur', size', hrun, hlen', hsub, hsort', hgt⟩ :=
        ih labels1 dur1 size1 (List.Pairwise.of_cons hsort)
          (fun g hg => hge g (List.mem_cons_of_mem e hg))
          (fun g hg hgidx => by
            rw [hlen1]; exact hok g (List.mem_cons_of_mem e hg) hgidx)
      refine ⟨exs', labels', dur', size', ?_, hlen'.trans hlen1,
        fun g hg => List.mem_cons_of_mem e (hsub g hg), hsort', hgt⟩
      simp [runExtractors, he, hex, hrun]
    · refine ⟨e :: rest, labels, dur, size, by simp [runExtractors, he], rfl,
        fun g hg => hg, hsort, ?_⟩
      intro g hg
      have h1 := hge e (List.mem_cons_self e rest)
      rcases List.mem_cons.mp hg with hg | hg
      · subst hg; omega
      · have h2 : e.field_index ≤ g.field_index := (List.pairwise_cons.mp hsort).1 g hg
        omega

/-- Whether a `process_line` result is the Filtered outcome (`Ok(false)`). -/
def isFiltered (r : Except PError (Bool × List (List Char) × Option (List Char) × Option Nat)) :
    Bool :=
  match r with
  | .ok (false, _, _, _) => true
  | _ => false

theorem processValues_filtered_aux (φ : LogFilter) :
    ∀ (vs : List (List Char)) (j : Nat) (fs : List LogFilter) (exs : List Extractor)
      (labels : List (List Char)) (dur : Option (List Char)) (size : Option Nat),
    φ ∈ fs →
    List.Pairwise (fun a b => a.field_index ≤ b.field_index) fs →
    (∀ f ∈ fs, j ≤ f.field_index) →
    List.Pairwise (fun a b => a.field_index ≤ b.field_index) exs →
    (∀ e ∈ exs, j ≤ e.field_index) →
    φ.field_index < j + vs.length →
    φ.func (vs.getD (φ.field_index - j) []) = false →
    (∀ e ∈ exs, e.field_index < φ.field_index →
        extractOk e (vs.getD (e.field_index - j) []) labels.length = true) →
    isFiltered (processValues vs j fs exs labels dur size) = true := by
  intro vs
  induction vs with
  | nil =>
    intro j fs exs labels dur size hmem _ hgef _ _ hlt _ _
    have := hgef φ hmem
    simp at hlt
    omega
  | cons v vs ih =>
    intro j fs exs labels dur size hmem hsortf hgef hsorte hgee hlt hrej hok
    by_cases hj : φ.field_index = j
    · have hv : (v :: vs).getD (φ.field_index - j) [] = v := by
        simp [hj]
      rw [hv] at hrej
      have hrf := runFilters_rejects j v fs φ hmem hsortf hgef hj hrej
      simp [processValues, hrf, isFiltered]
    · have hjlt : j < φ.field_index :=
        lt_of_le_of_ne (hgef φ hmem) (fun hh => hj hh.symm)
      cases hrf : runFilters j v fs with
      | none => simp [processValues, hrf, isFiltered]
      | some fs' =>
        obtain ⟨hsubf, hsortf', hgtf, hkeep⟩ := runFilters_some j v fs fs' hrf hsortf hgef
        have hexok : ∀ e ∈ exs, e.field_index = j → extractOk e v labels.length = true := by
          intro e he heq
          have := hok e he (by omega)
          rw [heq] at this
          simpa using this
        obtain ⟨exs', labels', dur', size', hrun, hlen, hsube, hsorte', hgte⟩ :=
          runExtractors_ok j v exs labels dur size hsorte hgee hexok
        have harith : φ.field_index - j = (φ.field_index - (j + 1)) + 1 := by omega
        have hres := ih (j + 1) fs' exs' labels' dur' size'
          (hkeep φ hmem hj) hsortf' hgtf hsorte' hgte
          (by simp at hlt ⊢; omega)
          (by rw [harith] at hrej; simpa using hrej)
          (by
            intro e he helt
            have heB := hsube e he
            have hgeB := hgte e he
            have := hok e heB helt
            have harith2 : e.field_index - j = (e.field_index - (j + 1)) + 1 := by omega
            rw [harith2] at this
            rw [hlen]
            simpa using this)
        simpa [processValues, hrf, hrun] using hres

/-- **C3 (counterexample).** A pipeline with the auto `Duration` extractor on
field 0 (`request_time`) and a user filter on field 1 (`status`) whose
predicate is "matches `^200$`": on the line `x 201` the field-1 value `201`
fails the predicate, yet `process_line` reports the parse error "Invalid
duration" raised by the field-0 extractor before the filter is ever
consulted — not the Filtered outcome the claim promises regardless of other
fields' content. -/
theorem c3_counterexample :
    LogProcessor.processLine
        ⟨[.field (.other "request_time"), .str " ".toList, .field .status],
         ["status"],
         [⟨1, fun w => w = "200".toList⟩],
         [⟨none, 0, .duration⟩]⟩
        "x 201".toList (List.replicate 1 "unk".toList)
      = .error .invalidDuration
    ∧ (fun w : List Char => (w = "200".toList : Bool)) "201".toList = false := by
  exact ⟨by decide, by decide⟩

/-- **C3 (amended).** For every filter with predicate `P` registered on field
`f` in a pipeline whose filter and extractor lists are sorted by field
position (as `build_processor` guarantees), every parsed line whose field `f`
value fails `P` is reported Filtered — not an error — regardless of the
content of the line's other fields, *provided* every extractor registered at
a field position before `f` succeeds on its field's value (otherwise its
parse error preempts the filter).  Stated over the parsed value vector, which
is the only part of the line `process_line` consumes. -/
theorem c3_failing_filter_is_filtered (φ : LogFilter) (values : List (List Char))
    (fs : List LogFilter) (exs : List Extractor) (numLabels : Nat)
    (hmem : φ ∈ fs)
    (hsf : List.Pairwise (fun a b => a.field_index ≤ b.field_index) fs)
    (hse : List.Pairwise (fun a b => a.field_index ≤ b.field_index) exs)
    (hlt : φ.field_index < values.length)
    (hrej : φ.func (values.getD φ.field_index []) = false)
    (hok : ∀ e ∈ exs, e.field_index < φ.field_index →
        extractOk e (values.getD e.field_index []) numLabels = true) :
    isFiltered (processValues values 0 fs exs
        (List.replicate numLabels "unk".toList) none none) = true := by
  apply processValues_filtered_aux φ values 0 fs exs _ none none hmem hsf
    (by simp) hse (by simp) (by simpa using hlt) (by simpa using hrej)
  intro e he helt
  have := hok e he helt
  simpa [List.length_replicate] using this

/-- **C3 (witness).** The amended claim at a concrete input: duration
extractor on field 0 succeeds on `0.1`, the status filter on field 1 rejects
`201`, and the outcome is Filtered. -/
theorem c3_witness :
    isFiltered (processValues ["0.1".toList, "201".toList] 0
        [⟨1, fun w => w = "200".toList⟩] [⟨none, 0, .duration⟩]
        (List.replicate 1 "unk".toList) none none) = true :=
  c3_failing_filter_is_filtered ⟨1, fun w => w = "200".toList⟩
    ["0.1".toList, "201".toList] [⟨1, fun w => w = "200".toList⟩]
    [⟨none, 0, .duration⟩] 1
    (List.mem_singleton.mpr rfl)
    (by simp)
    (by simp)
    (by decide)
    (by decide)
    (by intro e he helt
        have : e = (⟨none, 0, .duration⟩ : Extractor) := List.mem_singleton.mp he
        subst this
        decide)

/-! ## C9: label indices stay in bounds; the no-label panic is unreachable
for the auto numeric extractors -/

theorem label_fst_lt (labels : List String) (lab : String) :
    (LogCollectorBuilder.label labels lab).1 < (LogCollectorBuilder.label labels lab).2.length := by
  cases hf : labels.findIdx? (· = lab) with
  | some i =>
    have := (List.findIdx?_eq_some_iff_findIdx_eq.mp hf).1
    simp [LogCollectorBuilder.label, hf, this]
  | none => simp [LogCollectorBuilder.label, hf]

theorem label_len_le (labels : List String) (lab : String) :
    labels.length ≤ (LogCollectorBuilder.label labels lab).2.length := by
  cases hf : labels.findIdx? (· = lab) with
  | some i => simp [LogCollectorBuilder.label, hf]
  | none => simp [LogCollectorBuilder.label, hf]

/-- Every extractor that carries a target label points strictly below the
label list's length. -/
def LabelsInBounds (exs : List Extractor) (labels : List String) : Prop :=
  ∀ e ∈ exs, ∀ n idx, e.label = some (n, idx) → idx < labels.length

theorem addAuto_inv (st : List Extractor × List String) (i : Nat)
    (lab : Option String) (func : ExtractorFunc) (h : LabelsInBounds st.1 st.2) :
    LabelsInBounds (addAuto st i lab func).1 (addAuto st i lab func).2 := by
  cases lab with
  | none =>
    intro e he n idx hl
    simp only [addAuto] at he ⊢
    rcases List.mem_append.mp he with he | he
    · exact h e he n idx hl
    · simp only [List.mem_singleton] at he
      subst he
      cases hl
  | some l =>
    rcases hq : LogCollectorBuilder.label st.2 l with ⟨idx0, labels'⟩
    intro e he n idx hl
    simp only [addAuto, hq] at he ⊢
    rcases List.mem_append.mp he with he | he
    · have hlen : st.2.length ≤ labels'.length := by
        have := label_len_le st.2 l
        rw [hq] at this
        exact this
      exact lt_of_lt_of_le (h e he n idx hl) hlen
    · simp only [List.mem_singleton] at he
      subst he
      simp only [Option.some.injEq, Prod.mk.injEq] at hl
      obtain ⟨_, hidx⟩ := hl
      subst hidx
      have := label_fst_lt st.2 l
      rw [hq] at this
      exact this

theorem autoLoop_inv :
    ∀ (fields : List String) (i : Nat) (st : List Extractor × List String),
    LabelsInBounds st.1 st.2 →
    LabelsInBounds (autoLoop fields i st).1 (autoLoop fields i st).2 := by
  intro fields
  induction fields with
  | nil => intro i st h; exact h
  | cons f rest ih =>
    intro i st h
    simp only [autoLoop]
    split_ifs with h1 h2 h3 h4 h5
    · exact ih (i + 1) _ (addAuto_inv st i (some "user") .user h)
    · exact ih (i + 1) _ (addAuto_inv st i (some "status") .status h)
    · exact ih (i + 1) _ (addAuto_inv st i none .duration h)
    · exact ih (i + 1) _ (addAuto_inv st i (some "vhost") .host h)
    · exact ih (i + 1) _ (addAuto_inv st i none .responseBodySize h)
    · exact ih (i + 1) st h

theorem builderNew_inv (fields : List String) :
    LabelsInBounds (LogCollectorBuilder.new fields).extractors
      (LogCollectorBuilder.new fields).labels := by
  have h0 : LabelsInBounds ([] : List Extractor) ([] : List String) := by
    intro e he
    cases he
  have := autoLoop_inv fields 0 ([], []) h0
  rcases hq : autoLoop fields 0 ([], []) with ⟨exs, labels⟩
  rw [hq] at this
  simp only [LogCollectorBuilder.new, hq]
  exact this

theorem addFilter_inv (b : Builder) (field : String) (func : List Char → Bool)
    (h : LabelsInBounds b.extractors b.labels) :
    LabelsInBounds (LogCollectorBuilder.addFilter b field func).1.extractors
      (LogCollectorBuilder.addFilter b field func).1.labels := by
  cases hf : b.fields.findIdx? (· = field) with
  | some i => simpa [LogCollectorBuilder.addFilter, hf] using h
  | none => simpa [LogCollectorBuilder.addFilter, hf] using h

theorem addExtractor_inv (b : Builder) (lab : Option String) (field : String)
    (func : ExtractorFunc) (h : LabelsInBounds b.extractors b.labels) :
    LabelsInBounds (LogCollectorBuilder.addExtractor b lab field func).1.extractors
      (LogCollectorBuilder.addExtractor b lab field func).1.labels := by
  cases lab with
  | none =>
    cases hf : b.fields.findIdx? (· = field) with
    | some i =>
      intro e he n idx hl
      simp only [LogCollectorBuilder.addExtractor, hf] at he ⊢
      rcases List.mem_append.mp he with he | he
      · exact h e he n idx hl
      · simp only [List.mem_singleton] at he
        subst he
        cases hl
    | none =>
      intro e he n idx hl
      simp only [LogCollectorBuilder.addExtractor, hf] at he ⊢
      exact h e he n idx hl
  | some l =>
    rcases hq : LogCollectorBuilder.label b.labels l with ⟨idx0, labels'⟩
    have hlen : b.labels.length ≤ labels'.length := by
      have := label_len_le b.labels l
      rw [hq] at this
      exact this
    have hlt : idx0 < labels'.length := by
      have := label_fst_lt b.labels l
      rw [hq] at this
      exact this
    cases hf : b.fields.findIdx? (· = field) with
    | some i =>
      intro e he n idx hl
      simp only [LogCollectorBuilder.addExtractor, hf, hq] at he ⊢
      rcases List.mem_append.mp he with he | he
      · exact lt_of_lt_of_le (h e he n idx hl) hlen
      · simp only [List.mem_singleton] at he
        subst he
        simp only [Option.some.injEq, Prod.mk.injEq] at hl
        obtain ⟨_, hidx⟩ := hl
        subst hidx
        exact hlt
    | none =>
      intro e he n idx hl
      simp only [LogCollectorBuilder.addExtractor, hf, hq] at he ⊢
      exact lt_of_lt_of_le (h e he n idx hl) hlen

theorem builderReached_inv (b : Builder) (h : BuilderReached b) :
    LabelsInBounds b.extractors b.labels := by
  induction h with
  | base fields => exact builderNew_inv fields
  | filt b field func _ ih => exact addFilter_inv b field func ih
  | ext b lab field func _ ih => exact addExtractor_inv b lab field func ih

theorem setLabel_oob (lab : Option (String × Nat)) (labels : List (List Char)) (w : List Char)
    (h : setLabel lab labels w = .error .panicIndexOutOfBounds) :
    ∃ n idx, lab = some (n, idx) ∧ ¬idx < labels.length := by
  cases lab with
  | none => simp [setLabel] at h
  | some p =>
    rcases p with ⟨n, idx⟩
    simp only [setLabel] at h
    split at h
    · cases h
    · exact ⟨n, idx, rfl, by assumption⟩

theorem setLabel_ne_oob (lab : Option (String × Nat)) (labels : List (List Char))
    (w : List Char) (hb : ∀ n idx, lab = some (n, idx) → idx < labels.length) :
    setLabel lab labels w ≠ .error .panicIndexOutOfBounds := by
  intro hc
  obtain ⟨n, idx, hlab, hn⟩ := setLabel_oob lab labels w hc
  exact hn (hb n idx hlab)

theorem extract_ne_oob (e : Extractor) (v : List Char) (labels : List (List Char))
    (dur : Option (List Char)) (size : Option Nat)
    (hb : ∀ n idx, e.label = some (n, idx) → idx < labels.length) :
    e.extract v labels dur size ≠ .error .panicIndexOutOfBounds := by
  intro hc
  cases hf : e.func with
  | user =>
    simp only [Extractor.extract, hf] at hc
    split at hc
    · cases hsl : setLabel e.label labels "yes".toList with
      | error err =>
        rw [hsl] at hc
        simp only [Except.error.injEq] at hc
        subst hc
        exact setLabel_ne_oob e.label labels "yes".toList hb hsl
      | ok l' => rw [hsl] at hc; cases hc
    · cases hsl : setLabel e.label labels "no".toList with
      | error err =>
        rw [hsl] at hc
        simp only [Except.error.injEq] at hc
        subst hc
        exact setLabel_ne_oob e.label labels "no".toList hb hsl
      | ok l' => rw [hsl] at hc; cases hc
  | status =>
    simp only [Extractor.extract, hf] at hc
    cases hsl : setLabel e.label labels v with
    | error err =>
      rw [hsl] at hc
      simp only [Except.error.injEq] at hc
      subst hc
      exact setLabel_ne_oob e.label labels v hb hsl
    | ok l' => rw [hsl] at hc; cases hc
  | host =>
    simp only [Extractor.extract, hf] at hc
    cases hsl : setLabel e.label labels v with
    | error err =>
      rw [hsl] at hc
      simp only [Except.error.injEq] at hc
      subst hc
      exact setLabel_ne_oob e.label labels v hb hsl
    | ok l' => rw [hsl] at hc; cases hc
  | regex replace =>
    simp only [Extractor.extract, hf] at hc
    cases hsl : setLabel e.label labels (replace v) with
    | error err =>
      rw [hsl] at hc
      simp only [Except.error.injEq] at hc
      subst hc
      exact setLabel_ne_oob e.label labels (replace v) hb hsl
    | ok l' => rw [hsl] at hc; cases hc
  | duration =>
    simp only [Extractor.extract, hf] at hc
    split at hc <;> cases hc
  | responseBodySize =>
    simp only [Extractor.extract, hf] at hc
    split at hc <;> cases hc

/-- The numeric transforms never call `set_label`, so neither of the
label-related panics can arise from them. -/
theorem numeric_extract_no_label_panic (e : Extractor) (v : List Char)
    (labels : List (List Char)) (dur : Option (List Char)) (size : Option Nat)
    (hfunc : e.func = .duration ∨ e.func = .responseBodySize) :
    e.extract v labels dur size ≠ .error .panicNoTargetLabel := by
  intro hc
  rcases hfunc with hf | hf <;>
    · simp only [Extractor.extract, hf] at hc
      split at hc <;> cases hc

/-- In `LogCollectorBuilder::new`, the extractors registered with a numeric
transform are exactly the `request_time` / `body_bytes_sent` ones, added with
`label = None`. -/
def AutoNoLabel (exs : List Extractor) : Prop :=
  ∀ e ∈ exs, (e.func = .duration ∨ e.func = .responseBodySize) → e.label = none

theorem addAuto_autoNoLabel (st : List Extractor × List String) (i : Nat)
    (lab : Option String) (func : ExtractorFunc) (h : AutoNoLabel st.1)
    (hcall : lab = none ∨ (func ≠ .duration ∧ func ≠ .responseBodySize)) :
    AutoNoLabel (addAuto st i lab func).1 := by
  cases lab with
  | none =>
    intro e he hfunc
    simp only [addAuto] at he
    rcases List.mem_append.mp he with he | he
    · exact h e he hfunc
    · simp only [List.mem_singleton] at he
      subst he
      rfl
  | some l =>
    rcases hq : LogCollectorBuilder.label st.2 l with ⟨idx0, labels'⟩
    intro e he hfunc
    simp only [addAuto, hq] at he
    rcases List.mem_append.mp he with he | he
    · exact h e he hfunc
    · simp only [List.mem_singleton] at he
      subst he
      rcases hcall with hcall | hcall
      · cases hcall
      · rcases hfunc with hfunc | hfunc
        · exact absurd hfunc hcall.1
        · exact absurd hfunc hcall.2

theorem autoLoop_autoNoLabel :
    ∀ (fields : List String) (i : Nat) (st : List Extractor × List String),
    AutoNoLabel st.1 → AutoNoLabel (autoLoop fields i st).1 := by
  intro fields
  induction fields with
  | nil => intro i st h; exact h
  | cons f rest ih =>
    intro i st h
    simp only [autoLoop]
    split_ifs with h1 h2 h3 h4 h5
    · exact ih (i + 1) _ (addAuto_autoNoLabel st i (some "user") .user h
        (Or.inr ⟨(fun hh => nomatch hh), (fun hh => nomatch hh)⟩))
    · exact ih (i + 1) _ (addAuto_autoNoLabel st i (some "status") .status h
        (Or.inr ⟨(fun hh => nomatch hh), (fun hh => nomatch hh)⟩))
    · exact ih (i + 1) _ (addAuto_autoNoLabel st i none .duration h (Or.inl rfl))
    · exact ih (i + 1) _ (addAuto_autoNoLabel st i (some "vhost") .host h
        (Or.inr ⟨(fun hh => nomatch hh), (fun hh => nomatch hh)⟩))
    · exact ih (i + 1) _ (addAuto_autoNoLabel st i none .responseBodySize h (Or.inl rfl))
    · exact ih (i + 1) st h

/-- **C9.** In every pipeline assembled by `LogCollectorBuilder` (the
auto-registered extractors of `new` plus any `add_extractor` calls,
successful or not), (1) every extractor that carries a target label has a
label index strictly below the label list's length, so (2) the label-slot
write `labels[label_index]` in `Extractor::extract` cannot hit its
out-of-bounds panic when run against a label array of the pipeline's size;
and (3) the auto-registered `Duration` and `ResponseBodySize` extractors
carry no label, and (4) those numeric transforms never invoke `set_label`,
so its no-target-label panic branch is unreachable for them. -/
theorem c9_label_slot_writes_safe (b : Builder) (h : BuilderReached b) :
    (∀ e ∈ b.extractors, ∀ n idx, e.label = some (n, idx) → idx < b.labels.length)
    ∧ (∀ e ∈ b.extractors, ∀ (v : List Char) (labels : List (List Char))
          (dur : Option (List Char)) (size : Option Nat),
        labels.length = b.labels.length →
        e.extract v labels dur size ≠ .error .panicIndexOutOfBounds)
    ∧ (∀ fields : List String, ∀ e ∈ (LogCollectorBuilder.new fields).extractors,
        (e.func = .duration ∨ e.func = .responseBodySize) → e.label = none)
    ∧ (∀ (e : Extractor) (v : List Char) (labels : List (List Char))
          (dur : Option (List Char)) (size : Option Nat),
        (e.func = .duration ∨ e.func = .responseBodySize) →
        e.extract v labels dur size ≠ .error .panicNoTargetLabel) := by
  have hinv := builderReached_inv b h
  refine ⟨hinv, ?_, ?_, numeric_extract_no_label_panic⟩
  · intro e he v labels dur size hlen
    apply extract_ne_oob
    intro n idx hlab
    rw [hlen]
    exact hinv e he n idx hlab
  · intro fields
    have h0 : AutoNoLabel ([] : List Extractor) := by
      intro e he
      cases he
    have := autoLoop_autoNoLabel fields 0 ([], []) h0
    rcases hq : autoLoop fields 0 ([], []) with ⟨exs, labels⟩
    rw [hq] at this
    simpa only [LogCollectorBuilder.new, hq] using this

/-- **C9 (witness).** The pipeline built from the single field `status`: its
auto status extractor targets label slot 0, below the label list's length,
and its `extract` on a concrete value and a label array of that length does
not hit the out-of-bounds panic. -/
theorem c9_witness :
    (0 : Nat) < (LogCollectorBuilder.new ["status"]).labels.length
    ∧ Extractor.extract ⟨some ("status", 0), 0, .status⟩ "201".toList
        ["unk".toList] none none ≠ .error .panicIndexOutOfBounds :=
  ⟨(c9_label_slot_writes_safe _ (.base ["status"])).1
      ⟨some ("status", 0), 0, .status⟩ (List.Mem.head _) "status" 0 rfl,
   (c9_label_slot_writes_safe _ (.base ["status"])).2.1
      ⟨some ("status", 0), 0, .status⟩ (List.Mem.head _) "201".toList
      ["unk".toList] none none (by decide)⟩

/-- **C2 (counterexample).** The grammar compiled from `$status` is a single
field token, so the line `abc` satisfies every literal boundary (there are
none) and the substring bounded for the field is the whole line; yet the line
parser reports "Invalid status code" instead of succeeding, because a
`status` value is converted to a `u16` during parsing. -/
theorem c2_counterexample :
    parseFormat "$status".toList = .ok [.field .status]
    ∧ Matches [.field .status] "abc".toList [(.status, "abc".toList)]
    ∧ parseTokens [.field .status] "abc".toList = .error .invalidStatusCode := by
  exact ⟨by decide, Matches.lastField .status "abc".toList, by decide⟩

/-- **C2 (witness).** The amended claim at a concrete grammar and line: the
grammar `$a:$b` applied to `x:y` returns the two bounded substrings. -/
theorem c2_witness :
    parseTokens [.field (.other "a"), .str [':'], .field (.other "b")] "x:y".toList
      = .ok [.other "a" "x".toList, .other "b" "y".toList] :=
  (c2_parse_eq_mkValues_of_matches
      [.field (.other "a"), .str [':'], .field (.other "b")]
      "x:y".toList
      [(.other "a", "x".toList), (.other "b", "y".toList)]
      (Matches.fieldSep (.other "a") ':' [] [.field (.other "b")] "x".toList
        ([':'] ++ "y".toList) [(.other "b", "y".toList)]
        (by decide)
        (Matches.lit [':'] [.field (.other "b")] "y".toList [(.other "b", "y".toList)]
          (Matches.lastField (.other "b") "y".toList)))).trans (by decide)
